import Mathlib

/-!
Verification development for the `order` Go package.

The package provides composite three-way comparators (`By`, `Fns.compare`,
`Reversed`), slice algorithms built on them (`Select` with median-of-medians
pivoting and Lomuto partitioning, binary `Search`), a reflection-based slice
view (`reflectutil.Slice`) whose `Swap` writes through to the original backing
array, and a numeric type-conversion lattice (`reflectutil.T`,
`kindConversionAllowed`, `numKindOf`).

Modelling conventions:
- Go slices are modelled as `List α`; the in-place `Swap` of
  `reflectutil.Slice` becomes the pure function `swapL`.
- The algorithms in `select.go` only ever read and write inside their current
  window, and recursive rounds use sub-windows of the current window.  They
  are therefore modelled as functions from the window's contents to the new
  window contents; re-narrowing `s.Slice(i, j)` becomes `take`/`drop`
  surgery on the window list, and the untouched parts are reattached around
  the recursive result.
- Go `int` values that can go negative (`Search`'s `start`/`end`, `Select`'s
  `k`) are modelled as `Int`; the single place where Go converts to `uint`
  (`int(uint(start+end) >> 1)`) is modelled with an explicit `% 2 ^ 64`.
- A Go run-time `panic` is modelled by an explicit error value (a `Bool`
  flag or a dedicated constructor) so that every model function is total.
- `Search`'s unbounded `for` loop is modelled with an explicit fuel
  parameter; `none` means the loop has not returned within the given number
  of iterations (so `∀ fuel, ... = none` exhibits divergence).
-/

set_option linter.unusedSectionVars false

set_option linter.unusedVariables false

namespace GoOrder

variable {α : Type} [Inhabited α]

/-- Models `reflectutil.Slice.Swap` (slice_test.go, `Swap`/`reflect.Swapper`):
exchange the elements at positions `i` and `j`.  `reflect.Swapper`'s function
requires both indices to be in range; all call sites in the package satisfy
this, and the out-of-range case is totalized as the identity. -/
def swapL (l : List α) (i j : Nat) : List α :=
  if i < l.length ∧ j < l.length then
    (l.set i (l.getD j default)).set j (l.getD i default)
  else l

@[simp] theorem swapL_length (l : List α) (i j : Nat) :
    (swapL l i j).length = l.length := by
  unfold swapL; split <;> simp

theorem getD_cons_set_perm :
    ∀ (t : List α) (j : Nat) (x : α), j < t.length →
      ((t.getD j default) :: t.set j x).Perm (x :: t)
  | y :: s, 0, x, _ => by
      simpa using List.Perm.swap x y s
  | y :: s, j + 1, x, h => by
      have hj : j < s.length := by simpa using Nat.lt_of_succ_lt_succ h
      have ih := getD_cons_set_perm s j x hj
      exact (List.Perm.swap _ _ _).trans ((ih.cons y).trans (List.Perm.swap _ _ _))

theorem set_getD_self :
    ∀ (l : List α) (i : Nat), i < l.length → l.set i (l.getD i default) = l
  | _ :: _, 0, _ => rfl
  | x :: t, i + 1, h => by
      have := set_getD_self t i (by simpa using Nat.lt_of_succ_lt_succ h)
      simpa using this

theorem swap_core_perm :
    ∀ (l : List α) (i j : Nat), i < j → j < l.length →
      ((l.set i (l.getD j default)).set j (l.getD i default)).Perm l
  | x :: t, 0, j + 1, _, h => by
      have hj : j < t.length := by simpa using Nat.lt_of_succ_lt_succ h
      simpa using (getD_cons_set_perm t j x hj).cons x |>.trans (List.Perm.swap _ _ _)
  | x :: t, i + 1, j + 1, hij, h => by
      have hj : j < t.length := by simpa using Nat.lt_of_succ_lt_succ h
      have := swap_core_perm t i j (Nat.lt_of_succ_lt_succ hij) hj
      simpa using this.cons x

theorem swapL_perm (l : List α) (i j : Nat) : (swapL l i j).Perm l := by
  unfold swapL
  split
  · next hin =>
    rcases Nat.lt_trichotomy i j with hij | hij | hij
    · exact swap_core_perm l i j hij hin.2
    · subst hij
      rw [List.set_set, set_getD_self l i hin.1]
    · rw [List.set_comm _ _ _ (Nat.ne_of_gt hij)]
      exact swap_core_perm l j i hij hin.1
  · exact List.Perm.refl l

theorem getD_eq_getElem' (l : List α) (i : Nat) (h : i < l.length) :
    l.getD i default = l[i] :=
  List.getD_eq_getElem l default h

theorem swapL_getD_fst (l : List α) (i j : Nat) (hi : i < l.length)
    (hj : j < l.length) : (swapL l i j).getD i default = l.getD j default := by
  unfold swapL
  rw [if_pos ⟨hi, hj⟩]
  by_cases hij : i = j
  · subst hij
    rw [getD_eq_getElem' _ i (by simpa using hi)]
    simp
  · rw [getD_eq_getElem' _ i (by simpa using hi)]
    rw [List.getElem_set_ne (fun h => hij h.symm), List.getElem_set_self]

theorem swapL_getD_snd (l : List α) (i j : Nat) (hi : i < l.length)
    (hj : j < l.length) : (swapL l i j).getD j default = l.getD i default := by
  unfold swapL
  rw [if_pos ⟨hi, hj⟩]
  rw [getD_eq_getElem' _ j (by simpa using hj)]
  simp

theorem swapL_getD_other (l : List α) (i j t : Nat) (hti : t ≠ i) (htj : t ≠ j) :
    (swapL l i j).getD t default = l.getD t default := by
  unfold swapL
  split
  · next hin =>
    by_cases ht : t < l.length
    · rw [getD_eq_getElem' _ t (by simpa using ht),
        List.getElem_set_ne (fun h => htj h.symm),
        List.getElem_set_ne (fun h => hti h.symm),
        getD_eq_getElem' _ t ht]
    · rw [List.getD_eq_default _ _ (by simpa using Nat.le_of_not_lt ht),
        List.getD_eq_default _ _ (Nat.le_of_not_lt ht)]
  · rfl

/-- Models the inner `for j := i; j > 0 && fns.compare(s.Index(j-1), s.Index(j)) > 0; j--`
loop of `Fns.sortSmallSlice` (select.go): bubble the element at `j` down while
it is smaller than its left neighbour. -/
def sortSmallInner (cmp : α → α → Int) : List α → Nat → List α
  | l, 0 => l
  | l, j + 1 =>
    if 0 < cmp (l.getD j default) (l.getD (j + 1) default) then
      sortSmallInner cmp (swapL l j (j + 1)) j
    else l

@[simp] theorem sortSmallInner_length (cmp : α → α → Int) :
    ∀ (l : List α) (j : Nat), (sortSmallInner cmp l j).length = l.length
  | _, 0 => rfl
  | l, j + 1 => by
      rw [sortSmallInner]
      split
      · rw [sortSmallInner_length cmp _ j, swapL_length]
      · rfl

theorem sortSmallInner_perm (cmp : α → α → Int) :
    ∀ (l : List α) (j : Nat), (sortSmallInner cmp l j).Perm l
  | _, 0 => List.Perm.refl _
  | l, j + 1 => by
      rw [sortSmallInner]
      split
      · exact (sortSmallInner_perm cmp _ j).trans (swapL_perm l j (j + 1))
      · exact List.Perm.refl l

/-- Models the outer `for i := 1; i < s.Len(); i++` loop of `Fns.sortSmallSlice`. -/
def sortSmallAux (cmp : α → α → Int) (l : List α) (i : Nat) : List α :=
  if _h : i < l.length then
    sortSmallAux cmp (sortSmallInner cmp l i) (i + 1)
  else l
termination_by l.length - i
decreasing_by simp only [sortSmallInner_length]; omega

/-- Models `Fns.sortSmallSlice` (select.go): insertion sort of a (small) window. -/
def sortSmallSlice (cmp : α → α → Int) (l : List α) : List α :=
  sortSmallAux cmp l 1

theorem sortSmallAux_perm (cmp : α → α → Int) (l : List α) (i : Nat) :
    (sortSmallAux cmp l i).Perm l := by
  induction l, i using sortSmallAux.induct cmp with
  | case1 l i h ih =>
      rw [sortSmallAux, dif_pos h]
      exact ih.trans (sortSmallInner_perm cmp l i)
  | case2 l i h =>
      rw [sortSmallAux, dif_neg h]

theorem sortSmallSlice_perm (cmp : α → α → Int) (l : List α) :
    (sortSmallSlice cmp l).Perm l :=
  sortSmallAux_perm cmp l 1

@[simp] theorem sortSmallSlice_length (cmp : α → α → Int) (l : List α) :
    (sortSmallSlice cmp l).length = l.length :=
  (sortSmallSlice_perm cmp l).length_eq

/-- Apply an in-place transformation `f` to the sub-window `[a, b)` of the
current window: models calling a mutating routine on `s.Slice(a, b)` (the
routine only rewrites that segment of the backing storage). -/
def onSeg (f : List α → List α) (l : List α) (a b : Nat) : List α :=
  l.take a ++ f ((l.drop a).take (b - a)) ++ l.drop b

theorem seg_decomp (l : List α) (a b : Nat) (hab : a ≤ b) :
    l = l.take a ++ ((l.drop a).take (b - a) ++ l.drop b) := by
  conv_lhs => rw [← List.take_append_drop a l]
  congr 1
  conv_lhs => rw [← List.take_append_drop (b - a) (l.drop a)]
  congr 1
  rw [List.drop_drop]
  congr 1
  omega

theorem onSeg_perm (f : List α → List α) (l : List α) (a b : Nat)
    (hab : a ≤ b) (hb : b ≤ l.length)
    (hf : (f ((l.drop a).take (b - a))).Perm ((l.drop a).take (b - a))) :
    (onSeg f l a b).Perm l := by
  unfold onSeg
  rw [List.append_assoc]
  conv_rhs => rw [seg_decomp l a b hab]
  exact List.Perm.append_left _ (hf.append_right _)

theorem onSeg_length (f : List α → List α) (l : List α) (a b : Nat)
    (hab : a ≤ b) (hb : b ≤ l.length)
    (hf : (f ((l.drop a).take (b - a))).Perm ((l.drop a).take (b - a))) :
    (onSeg f l a b).length = l.length :=
  (onSeg_perm f l a b hab hb hf).length_eq

/-- Models the `for left := 0; left < n; left += size` loop of `Fns.pivot`
(select.go): insertion-sort each group of (up to) 5 elements, and swap each
group's middle element `s[(left+right-1)/2]` to position `medLen`, compacting
the medians at the front of the window.  Returns the new window contents and
the final `medLen`. -/
def pivotGroups (cmp : α → α → Int) (l : List α) (left medLen : Nat) :
    List α × Nat :=
  if h : left < l.length then
    pivotGroups cmp
      (swapL (onSeg (sortSmallSlice cmp) l left (min (left + 5) l.length))
        ((left + min (left + 5) l.length - 1) / 2) medLen)
      (left + 5) (medLen + 1)
  else (l, medLen)
termination_by l.length - left
decreasing_by
  rw [swapL_length,
    onSeg_length _ _ _ _ (by omega) (by omega) (sortSmallSlice_perm cmp _)]
  omega

theorem pivotGroups_length (cmp : α → α → Int) (l : List α) (left medLen : Nat) :
    (pivotGroups cmp l left medLen).1.length = l.length := by
  induction l, left, medLen using pivotGroups.induct cmp with
  | case1 l left medLen h ih =>
      rw [pivotGroups, dif_pos h]
      rw [ih, swapL_length,
        onSeg_length _ _ _ _ (by omega) (by omega) (sortSmallSlice_perm cmp _)]
  | case2 l left medLen h =>
      rw [pivotGroups, dif_neg h]

theorem pivotGroups_perm (cmp : α → α → Int) (l : List α) (left medLen : Nat) :
    (pivotGroups cmp l left medLen).1.Perm l := by
  induction l, left, medLen using pivotGroups.induct cmp with
  | case1 l left medLen h ih =>
      rw [pivotGroups, dif_pos h]
      refine ih.trans ?_
      exact (swapL_perm _ _ _).trans
        (onSeg_perm _ _ _ _ (by omega) (by omega) (sortSmallSlice_perm cmp _))
  | case2 l left medLen h =>
      rw [pivotGroups, dif_neg h]

theorem pivotGroups_medLen (cmp : α → α → Int) (l : List α) (left medLen : Nat) :
    (pivotGroups cmp l left medLen).2 ≤ medLen + (l.length - left + 4) / 5 := by
  induction l, left, medLen using pivotGroups.induct cmp with
  | case1 l left medLen h ih =>
      rw [pivotGroups, dif_pos h]
      have hlen :
          (swapL (onSeg (sortSmallSlice cmp) l left (min (left + 5) l.length))
            ((left + min (left + 5) l.length - 1) / 2) medLen).length = l.length := by
        rw [swapL_length,
          onSeg_length _ _ _ _ (by omega) (by omega) (sortSmallSlice_perm cmp _)]
      rw [hlen] at ih
      omega
  | case2 l left medLen h =>
      rw [pivotGroups, dif_neg h]
      omega

/-- Models `Fns.pivot` (select.go): the `for s.Len() > 0` loop.  A window of at
most 5 elements is sorted and its lower-middle element `s[(n-1)/2]` is swapped
to position 0; a larger window is reduced by compacting the group medians to a
front region of length `medLen` and re-running on `s.Slice(0, medLen)` (the
untouched tail of the window stays in the backing storage). -/
def pivot (cmp : α → α → Int) (l : List α) : List α :=
  if l.length = 0 then l
  else if l.length ≤ 5 then
    swapL (sortSmallSlice cmp l) ((l.length - 1) / 2) 0
  else
    match hr : pivotGroups cmp l 0 0 with
    | (l1, medLen) => pivot cmp (l1.take medLen) ++ l1.drop medLen
termination_by l.length
decreasing_by
  have h1 : l1.length = l.length := by
    have := pivotGroups_length cmp l 0 0
    rw [hr] at this
    exact this
  have h2 : medLen ≤ (l.length + 4) / 5 := by
    have := pivotGroups_medLen cmp l 0 0
    rw [hr] at this
    simpa using this
  simp only [List.length_take]
  omega

theorem pivot_perm (cmp : α → α → Int) (l : List α) : (pivot cmp l).Perm l := by
  induction l using pivot.induct cmp with
  | case1 l h =>
      rw [pivot, if_pos h]
  | case2 l h0 h5 =>
      rw [pivot, if_neg h0, if_pos h5]
      exact (swapL_perm _ _ _).trans (sortSmallSlice_perm cmp l)
  | case3 l h0 h5 l1 medLen hr ih =>
      rw [pivot, if_neg h0, if_neg h5, hr]
      have hgp : l1.Perm l := by
        have := pivotGroups_perm cmp l 0 0
        rw [hr] at this
        exact this
      refine List.Perm.trans ?_ hgp
      conv_rhs => rw [← List.take_append_drop medLen l1]
      exact ih.append_right _

@[simp] theorem pivot_length (cmp : α → α → Int) (l : List α) :
    (pivot cmp l).length = l.length :=
  (pivot_perm cmp l).length_eq

/-- Models the `for i := 0; i < n-1; i++` scan of `Fns.partition` (select.go):
every element strictly smaller than the pivot value `pv` (which sits
untouched at the last position) is swapped into the growing cursor region at
the front.  Returns the new window contents and the final cursor. -/
def partitionLoop (cmp : α → α → Int) (pv : α) (l : List α) (i cursor : Nat) :
    List α × Nat :=
  if h : i < l.length - 1 then
    if cmp (l.getD i default) pv < 0 then
      partitionLoop cmp pv (swapL l cursor i) (i + 1) (cursor + 1)
    else
      partitionLoop cmp pv l (i + 1) cursor
  else (l, cursor)
termination_by l.length - i
decreasing_by
  · rw [swapL_length]; omega
  · omega

theorem partitionLoop_length (cmp : α → α → Int) (pv : α) (l : List α)
    (i cursor : Nat) : (partitionLoop cmp pv l i cursor).1.length = l.length := by
  induction l, i, cursor using partitionLoop.induct cmp pv with
  | case1 l i cursor h ht ih =>
      rw [partitionLoop, dif_pos h, if_pos ht, ih, swapL_length]
  | case2 l i cursor h ht ih =>
      rw [partitionLoop, dif_pos h, if_neg ht, ih]
  | case3 l i cursor h =>
      rw [partitionLoop, dif_neg h]

theorem partitionLoop_cursor_le (cmp : α → α → Int) (pv : α) (l : List α)
    (i cursor : Nat) :
    cursor ≤ i → cursor ≤ l.length - 1 →
    (partitionLoop cmp pv l i cursor).2 ≤ l.length - 1 := by
  induction l, i, cursor using partitionLoop.induct cmp pv with
  | case1 l i cursor h ht ih =>
      intro hci hcl
      rw [partitionLoop, dif_pos h, if_pos ht]
      have := ih (by omega) (by rw [swapL_length]; omega)
      rw [swapL_length] at this
      exact this
  | case2 l i cursor h ht ih =>
      intro hci hcl
      rw [partitionLoop, dif_pos h, if_neg ht]
      exact ih (by omega) hcl
  | case3 l i cursor h =>
      intro hci hcl
      rw [partitionLoop, dif_neg h]
      exact hcl

theorem partitionLoop_spec (cmp : α → α → Int) (pv : α) (l : List α)
    (i cursor : Nat) :
    cursor ≤ i → i ≤ l.length - 1 → 1 ≤ l.length →
    l.getD (l.length - 1) default = pv →
    (∀ t, t < cursor → cmp (l.getD t default) pv < 0) →
    (∀ t, cursor ≤ t → t < i → 0 ≤ cmp (l.getD t default) pv) →
    (partitionLoop cmp pv l i cursor).1.length = l.length ∧
    (partitionLoop cmp pv l i cursor).1.Perm l ∧
    cursor ≤ (partitionLoop cmp pv l i cursor).2 ∧
    (partitionLoop cmp pv l i cursor).2 ≤ l.length - 1 ∧
    (partitionLoop cmp pv l i cursor).1.getD (l.length - 1) default = pv ∧
    (∀ t, t < (partitionLoop cmp pv l i cursor).2 →
      cmp ((partitionLoop cmp pv l i cursor).1.getD t default) pv < 0) ∧
    (∀ t, (partitionLoop cmp pv l i cursor).2 ≤ t → t < l.length - 1 →
      0 ≤ cmp ((partitionLoop cmp pv l i cursor).1.getD t default) pv) := by
  induction l, i, cursor using partitionLoop.induct cmp pv with
  | case1 l i cursor h ht ih =>
      intro hci hil hn hpv hlt hge
      rw [partitionLoop, dif_pos h, if_pos ht]
      have hcn : cursor < l.length := by omega
      have hin : i < l.length := by omega
      have hswlen : (swapL l cursor i).length = l.length := swapL_length l cursor i
      have h1 : cursor + 1 ≤ i + 1 := by omega
      have h2 : i + 1 ≤ (swapL l cursor i).length - 1 := by omega
      have h3 : (1: Nat) ≤ (swapL l cursor i).length := by omega
      have h4 : (swapL l cursor i).getD ((swapL l cursor i).length - 1) default = pv := by
        rw [hswlen, swapL_getD_other l cursor i _ (by omega) (by omega)]
        exact hpv
      have h5 : ∀ t, t < cursor + 1 → cmp ((swapL l cursor i).getD t default) pv < 0 := by
        intro t hh
        by_cases hc : t = cursor
        · rw [hc, swapL_getD_fst l cursor i hcn hin]
          exact ht
        · rw [swapL_getD_other l cursor i t hc (by omega)]
          exact hlt t (by omega)
      have h6 : ∀ t, cursor + 1 ≤ t → t < i + 1 →
          0 ≤ cmp ((swapL l cursor i).getD t default) pv := by
        intro t ht1 ht2
        by_cases hc : t = i
        · rw [hc, swapL_getD_snd l cursor i hcn hin]
          exact hge cursor (Nat.le_refl _) (by omega)
        · rw [swapL_getD_other l cursor i t (by omega) hc]
          exact hge t (by omega) (by omega)
      obtain ⟨g1, g2, g3, g4, g5, g6, g7⟩ := ih h1 h2 h3 h4 h5 h6
      simp only [hswlen] at g1 g4 g5 g7
      refine ⟨g1, g2.trans (swapL_perm l cursor i), by omega, g4, g5, g6, g7⟩
  | case2 l i cursor h ht ih =>
      intro hci hil hn hpv hlt hge
      rw [partitionLoop, dif_pos h, if_neg ht]
      have h6 : ∀ t, cursor ≤ t → t < i + 1 → 0 ≤ cmp (l.getD t default) pv := by
        intro t ht1 ht2
        by_cases hc : t = i
        · subst hc
          omega
        · exact hge t ht1 (by omega)
      exact ih (by omega) (by omega) hn hpv hlt h6
  | case3 l i cursor h =>
      intro hci hil hn hpv hlt hge
      rw [partitionLoop, dif_neg h]
      have hieq : i = l.length - 1 := by omega
      refine ⟨rfl, List.Perm.refl l, Nat.le_refl _, by omega, hpv, hlt, ?_⟩
      intro t ht1 ht2
      exact hge t ht1 (by omega)

/-- Models `Fns.partition` (select.go): move the element at `p` to the last
position, scan the rest moving strictly-smaller elements into the cursor
region, and finally swap the pivot value into the cursor position.  Returns
the new window contents together with the returned cursor index. -/
def partition (cmp : α → α → Int) (l : List α) (p : Nat) : List α × Nat :=
  let n := l.length
  let l1 := swapL l p (n - 1)
  let pv := l1.getD (n - 1) default
  let r := partitionLoop cmp pv l1 0 0
  (swapL r.1 r.2 (n - 1), r.2)

theorem partition_length (cmp : α → α → Int) (l : List α) (p : Nat) :
    (partition cmp l p).1.length = l.length := by
  unfold partition
  rw [swapL_length, partitionLoop_length, swapL_length]

theorem partition_cursor_lt (cmp : α → α → Int) (l : List α) (p : Nat)
    (hn : 1 ≤ l.length) : (partition cmp l p).2 < l.length := by
  unfold partition
  have h := partitionLoop_cursor_le cmp
    ((swapL l p (l.length - 1)).getD (l.length - 1) default)
    (swapL l p (l.length - 1)) 0 0 (Nat.le_refl 0) (by rw [swapL_length]; omega)
  rw [swapL_length] at h
  show (partitionLoop cmp ((swapL l p (l.length - 1)).getD (l.length - 1) default)
      (swapL l p (l.length - 1)) 0 0).2 < l.length
  omega

theorem partition_spec (cmp : α → α → Int) (l : List α) (p : Nat)
    (hn : 1 ≤ l.length) (hp : p < l.length) :
    (partition cmp l p).1.length = l.length ∧
    (partition cmp l p).1.Perm l ∧
    (partition cmp l p).2 < l.length ∧
    (partition cmp l p).1.getD (partition cmp l p).2 default = l.getD p default ∧
    (∀ t, t < (partition cmp l p).2 →
      cmp ((partition cmp l p).1.getD t default) (l.getD p default) < 0) ∧
    (∀ t, (partition cmp l p).2 < t → t < l.length →
      0 ≤ cmp ((partition cmp l p).1.getD t default) (l.getD p default)) := by
  have hpv : (swapL l p (l.length - 1)).getD (l.length - 1) default
      = l.getD p default :=
    swapL_getD_snd l p (l.length - 1) hp (by omega)
  have hpart : partition cmp l p =
      (swapL (partitionLoop cmp
          ((swapL l p (l.length - 1)).getD (l.length - 1) default)
          (swapL l p (l.length - 1)) 0 0).1
        (partitionLoop cmp
          ((swapL l p (l.length - 1)).getD (l.length - 1) default)
          (swapL l p (l.length - 1)) 0 0).2 (l.length - 1),
       (partitionLoop cmp
          ((swapL l p (l.length - 1)).getD (l.length - 1) default)
          (swapL l p (l.length - 1)) 0 0).2) := rfl
  obtain ⟨s1, s2, s3, s4, s5, s6, s7⟩ :=
    partitionLoop_spec cmp
      ((swapL l p (l.length - 1)).getD (l.length - 1) default)
      (swapL l p (l.length - 1)) 0 0 (Nat.le_refl 0) (Nat.zero_le _)
      (by rw [swapL_length]; omega) (by rw [swapL_length])
      (fun t ht => absurd ht (Nat.not_lt_zero t))
      (fun t ht1 ht2 => absurd ht2 (Nat.not_lt_zero t))
  simp only [swapL_length] at s1 s4 s5 s6 s7
  simp only [hpart]
  have hc1 : (partitionLoop cmp
      ((swapL l p (l.length - 1)).getD (l.length - 1) default)
      (swapL l p (l.length - 1)) 0 0).2 < l.length := by omega
  have hclen : (partitionLoop cmp
      ((swapL l p (l.length - 1)).getD (l.length - 1) default)
      (swapL l p (l.length - 1)) 0 0).2 <
      (partitionLoop cmp
        ((swapL l p (l.length - 1)).getD (l.length - 1) default)
        (swapL l p (l.length - 1)) 0 0).1.length := by omega
  have hlast : l.length - 1 < (partitionLoop cmp
      ((swapL l p (l.length - 1)).getD (l.length - 1) default)
      (swapL l p (l.length - 1)) 0 0).1.length := by omega
  refine ⟨by rw [swapL_length]; omega, ?_, hc1, ?_, ?_, ?_⟩
  · exact (swapL_perm _ _ _).trans (s2.trans (swapL_perm l p (l.length - 1)))
  · rw [swapL_getD_fst _ _ _ hclen hlast, s5, hpv]
  · intro t ht
    rw [swapL_getD_other _ _ _ t (by omega) (by omega), ← hpv]
    exact s6 t ht
  · intro t ht1 ht2
    by_cases hl : t = l.length - 1
    · rw [hl, swapL_getD_snd _ _ _ hclen hlast, ← hpv]
      exact s7 _ (Nat.le_refl _) (by omega)
    · rw [swapL_getD_other _ _ _ t (by omega) (by omega), ← hpv]
      exact s7 t (by omega) (by omega)

theorem getD_append_lt (A B : List α) (i : Nat) (h : i < A.length) :
    (A ++ B).getD i default = A.getD i default := by
  simp only [List.getD_eq_getElem?_getD, List.getElem?_append_left h]

theorem getD_append_ge (A B : List α) (i : Nat) (h : A.length ≤ i) :
    (A ++ B).getD i default = B.getD (i - A.length) default := by
  simp only [List.getD_eq_getElem?_getD, List.getElem?_append_right h]

theorem getD_take_lt (l : List α) (m i : Nat) (h : i < m) :
    (l.take m).getD i default = l.getD i default := by
  simp only [List.getD_eq_getElem?_getD, List.getElem?_take_of_lt h]

theorem getD_drop' (l : List α) (m i : Nat) :
    (l.drop m).getD i default = l.getD (m + i) default := by
  simp only [List.getD_eq_getElem?_getD, List.getElem?_drop]

theorem getD_mem (l : List α) (i : Nat) (h : i < l.length) :
    l.getD i default ∈ l := by
  rw [getD_eq_getElem' l i h]
  exact List.getElem_mem h

theorem mem_getD (l : List α) (y : α) (h : y ∈ l) :
    ∃ i, i < l.length ∧ l.getD i default = y := by
  obtain ⟨i, hi, hy⟩ := List.mem_iff_getElem.1 h
  exact ⟨i, hi, by rw [getD_eq_getElem' l i hi, hy]⟩

/-- Models the `for` loop of `Fns.Select` (select.go): place the
median-of-medians at index 0, partition around it, and recurse (iteratively in
the source) on the half-window containing rank `k`.  When the partition index
equals `k` the window is correctly positioned.  The `l.length = 0` guard
totalizes a state that `Select`'s bounds validation makes unreachable (on an
empty window the source's `partition` would fault in `Swap`). -/
def selectLoop (cmp : α → α → Int) (l : List α) (k : Nat) : List α :=
  if h0 : l.length = 0 then l
  else if (partition cmp (pivot cmp l) 0).2 = k then
    (partition cmp (pivot cmp l) 0).1
  else if (partition cmp (pivot cmp l) 0).2 < k then
    (partition cmp (pivot cmp l) 0).1.take ((partition cmp (pivot cmp l) 0).2 + 1) ++
      selectLoop cmp
        ((partition cmp (pivot cmp l) 0).1.drop ((partition cmp (pivot cmp l) 0).2 + 1))
        (k - ((partition cmp (pivot cmp l) 0).2 + 1))
  else
    selectLoop cmp
        ((partition cmp (pivot cmp l) 0).1.take (partition cmp (pivot cmp l) 0).2) k ++
      (partition cmp (pivot cmp l) 0).1.drop (partition cmp (pivot cmp l) 0).2
termination_by l.length
decreasing_by
  · have h1 : (partition cmp (pivot cmp l) 0).1.length = l.length := by
      rw [partition_length, pivot_length]
    simp only [List.length_drop]
    omega
  · have h1 : (partition cmp (pivot cmp l) 0).1.length = l.length := by
      rw [partition_length, pivot_length]
    have h2 : (partition cmp (pivot cmp l) 0).2 < l.length := by
      have := partition_cursor_lt cmp (pivot cmp l) 0 (by rw [pivot_length]; omega)
      rwa [pivot_length] at this
    simp only [List.length_take]
    omega

/-- Models `Fns.Select` (select.go): validate `0 ≤ k < len` (a violation makes
the source panic before touching the slice, modelled by returning the slice
unchanged together with `false`), then run the select loop. -/
def Select (cmp : α → α → Int) (l : List α) (k : Int) : List α × Bool :=
  if k < 0 ∨ (l.length : Int) ≤ k then (l, false)
  else (selectLoop cmp l k.toNat, true)

theorem selectLoop_spec [LinearOrder α] (cmp : α → α → Int)
    (hlt : ∀ a b : α, cmp a b < 0 ↔ a < b) :
    ∀ (n : Nat) (l : List α) (k : Nat), l.length ≤ n → k < l.length →
      (selectLoop cmp l k).Perm l ∧
      (∀ i, i < k →
        (selectLoop cmp l k).getD i default ≤ (selectLoop cmp l k).getD k default) ∧
      (∀ i, k < i → i < l.length →
        (selectLoop cmp l k).getD k default ≤ (selectLoop cmp l k).getD i default) := by
  intro n
  induction n with
  | zero =>
      intro l k hln hk
      exact absurd hk (by omega)
  | succ n ih =>
    intro l k hln hk
    have h0 : ¬(l.length = 0) := by omega
    have hplen : (pivot cmp l).length = l.length := pivot_length cmp l
    obtain ⟨p1, p2, p3, p4, p5, p6⟩ :=
      partition_spec cmp (pivot cmp l) 0 (by omega) (by omega)
    rcases hpp : partition cmp (pivot cmp l) 0 with ⟨l2, c⟩
    simp only [hpp] at p1 p2 p3 p4 p5 p6
    rw [hplen] at p1 p3
    simp only [hplen] at p6
    set x := (pivot cmp l).getD 0 default with hx
    have hperm2 : l2.Perm l := p2.trans (pivot_perm cmp l)
    have hlt5 : ∀ t, t < c → l2.getD t default < x := fun t ht => (hlt _ _).1 (p5 t ht)
    have hge6 : ∀ t, c < t → t < l.length → x ≤ l2.getD t default := by
      intro t h1 h2
      by_contra hcon
      push_neg at hcon
      have hc2 := (hlt _ _).2 hcon
      have hc3 := p6 t h1 h2
      omega
    by_cases hck : c = k
    · have heq : selectLoop cmp l k = l2 := by
        rw [selectLoop, dif_neg h0, hpp]
        simp [hck]
      rw [heq]
      subst hck
      refine ⟨hperm2, ?_, ?_⟩
      · intro i hi
        rw [p4]
        exact le_of_lt (hlt5 i hi)
      · intro i hi hil
        rw [p4]
        exact hge6 i hi hil
    · by_cases hcl : c < k
      · -- continue in the window strictly after the pivot
        have hdlen : (l2.drop (c + 1)).length = l.length - (c + 1) := by
          simp [p1]
        obtain ⟨qperm, qle, qge⟩ :=
          ih (l2.drop (c + 1)) (k - (c + 1)) (by omega) (by omega)
        rw [hdlen] at qge
        set t := selectLoop cmp (l2.drop (c + 1)) (k - (c + 1)) with hts
        have heq : selectLoop cmp l k = l2.take (c + 1) ++ t := by
          rw [selectLoop, dif_neg h0, hpp]
          simp [hck, hcl]
        rw [heq]
        have htlen : t.length = l.length - (c + 1) := by
          rw [qperm.length_eq, hdlen]
        have htklen : (l2.take (c + 1)).length = c + 1 := by
          simp
          omega
        have hmemt : ∀ z ∈ t, x ≤ z := by
          intro z hz
          have hz2 : z ∈ l2.drop (c + 1) := qperm.mem_iff.1 hz
          obtain ⟨j, hj, hjz⟩ := mem_getD _ _ hz2
          rw [getD_drop'] at hjz
          rw [List.length_drop] at hj
          rw [← hjz]
          exact hge6 (c + 1 + j) (by omega) (by omega)
        have hkth : (l2.take (c + 1) ++ t).getD k default
            = t.getD (k - (c + 1)) default := by
          rw [getD_append_ge _ _ k (by rw [htklen]; omega), htklen]
        have hxy : x ≤ t.getD (k - (c + 1)) default :=
          hmemt _ (getD_mem t (k - (c + 1)) (by omega))
        refine ⟨?_, ?_, ?_⟩
        · have hp : (l2.take (c + 1) ++ t).Perm (l2.take (c + 1) ++ l2.drop (c + 1)) :=
            List.Perm.append_left _ qperm
          rw [List.take_append_drop] at hp
          exact hp.trans hperm2
        · intro i hi
          rw [hkth]
          by_cases hic : i ≤ c
          · rw [getD_append_lt _ _ i (by omega), getD_take_lt _ _ i (by omega)]
            have hix : l2.getD i default ≤ x := by
              rcases Nat.lt_or_ge i c with h | h
              · exact le_of_lt (hlt5 i h)
              · have : i = c := by omega
                rw [this, p4]
            exact hix.trans hxy
          · rw [getD_append_ge _ _ i (by rw [htklen]; omega), htklen]
            exact qle (i - (c + 1)) (by omega)
        · intro i hi hil
          rw [hkth, getD_append_ge _ _ i (by rw [htklen]; omega), htklen]
          exact qge (i - (c + 1)) (by omega) (by omega)
      · -- continue in the window strictly before the pivot
        have hkc : k < c := by omega
        have htaklen : (l2.take c).length = c := by
          simp
          omega
        obtain ⟨qperm, qle, qge⟩ :=
          ih (l2.take c) k (by omega) (by omega)
        rw [htaklen] at qge
        set t := selectLoop cmp (l2.take c) k with hts
        have heq : selectLoop cmp l k = t ++ l2.drop c := by
          rw [selectLoop, dif_neg h0, hpp]
          simp [hck, hcl]
        rw [heq]
        have htlen : t.length = c := by
          rw [qperm.length_eq, htaklen]
        have hmemt : ∀ z ∈ t, z < x := by
          intro z hz
          have hz2 : z ∈ l2.take c := qperm.mem_iff.1 hz
          obtain ⟨j, hj, hjz⟩ := mem_getD _ _ hz2
          rw [htaklen] at hj
          rw [getD_take_lt _ _ j hj] at hjz
          rw [← hjz]
          exact hlt5 j hj
        have hkth : (t ++ l2.drop c).getD k default = t.getD k default := by
          rw [getD_append_lt _ _ k (by omega)]
        have hyx : t.getD k default < x :=
          hmemt _ (getD_mem t k (by omega))
        refine ⟨?_, ?_, ?_⟩
        · have hp : (t ++ l2.drop c).Perm (l2.take c ++ l2.drop c) :=
            qperm.append_right _
          rw [List.take_append_drop] at hp
          exact hp.trans hperm2
        · intro i hi
          rw [hkth, getD_append_lt _ _ i (by omega)]
          exact qle i hi
        · intro i hi hil
          rw [hkth]
          rcases Nat.lt_or_ge i c with hic | hic
          · rw [getD_append_lt _ _ i (by omega)]
            exact qge i hi hic
          · rw [getD_append_ge _ _ i (by omega), htlen, getD_drop']
            have hci : c + (i - c) = i := by omega
            rw [hci]
            have hxi : x ≤ l2.getD i default := by
              rcases Nat.lt_or_ge c i with h | h
              · exact hge6 i h hil
              · have : i = c := by omega
                rw [this, p4]
            exact le_of_lt (lt_of_lt_of_le hyx hxi)

theorem sorted_ge_of_countP_le {α : Type} [Inhabited α] [LinearOrder α] (x : α) :
    ∀ (m : List α), m.Sorted (· ≤ ·) → ∀ k, k < m.length →
      m.countP (fun y => decide (y < x)) ≤ k → x ≤ m.getD k default := by
  intro m
  induction m with
  | nil => intro _ k hk; exact absurd hk (by simp)
  | cons a t iht =>
      intro hs k hk hcount
      obtain ⟨hat, hts⟩ := List.sorted_cons.1 hs
      rw [List.countP_cons] at hcount
      match k with
      | 0 =>
          simp only [List.getD_cons_zero]
          by_cases hax : a < x
          · simp [hax] at hcount
          · exact le_of_not_lt hax
      | k + 1 =>
          simp only [List.getD_cons_succ]
          have hkt : k < t.length := by simpa using Nat.lt_of_succ_lt_succ hk
          by_cases hax : a < x
          · refine iht hts k hkt ?_
            simp [hax] at hcount
            omega
          · have hxa : x ≤ a := le_of_not_lt hax
            exact hxa.trans (hat _ (getD_mem t k hkt))

theorem sorted_le_of_lt_countP {α : Type} [Inhabited α] [LinearOrder α] (x : α) :
    ∀ (m : List α), m.Sorted (· ≤ ·) → ∀ k, k < m.length →
      k < m.countP (fun y => decide (y ≤ x)) → m.getD k default ≤ x := by
  intro m
  induction m with
  | nil => intro _ k hk; exact absurd hk (by simp)
  | cons a t iht =>
      intro hs k hk hcount
      obtain ⟨hat, hts⟩ := List.sorted_cons.1 hs
      rw [List.countP_cons] at hcount
      by_cases hax : a ≤ x
      · match k with
        | 0 => simpa using hax
        | k + 1 =>
            simp only [List.getD_cons_succ]
            have hkt : k < t.length := by simpa using Nat.lt_of_succ_lt_succ hk
            refine iht hts k hkt ?_
            simp [hax] at hcount
            omega
      · have hzero : t.countP (fun y => decide (y ≤ x)) = 0 := by
          rw [List.countP_eq_zero]
          intro z hz
          have : a ≤ z := hat _ hz
          simp only [decide_eq_true_eq]
          exact fun hzx => hax (le_trans this hzx)
        rw [hzero] at hcount
        simp [hax] at hcount

theorem kth_of_partitioned {α : Type} [Inhabited α] [LinearOrder α]
    (r m : List α) (k : Nat) (hperm : r.Perm m) (hs : m.Sorted (· ≤ ·))
    (hk : k < r.length)
    (hle : ∀ i, i < k → r.getD i default ≤ r.getD k default)
    (hge : ∀ i, k < i → i < r.length → r.getD k default ≤ r.getD i default) :
    m.getD k default = r.getD k default := by
  set x := r.getD k default with hxdef
  have hmlen : m.length = r.length := hperm.length_eq.symm
  have hc1 : r.countP (fun y => decide (y < x)) ≤ k := by
    conv_lhs => rw [← List.take_append_drop k r]
    rw [List.countP_append]
    have h1 : (r.take k).countP (fun y => decide (y < x)) ≤ k :=
      le_trans (List.countP_le_length _) (List.length_take_le k r)
    have h2 : (r.drop k).countP (fun y => decide (y < x)) = 0 := by
      rw [List.countP_eq_zero]
      intro z hz
      obtain ⟨j, hj, hjz⟩ := mem_getD _ _ hz
      rw [List.length_drop] at hj
      rw [getD_drop'] at hjz
      have hxz : x ≤ z := by
        rw [← hjz]
        rcases Nat.eq_zero_or_pos j with h | h
        · subst h
          simp [hxdef]
        · exact hge (k + j) (by omega) (by omega)
      simp only [decide_eq_true_eq]
      exact not_lt.2 hxz
    omega
  have hc2 : k < r.countP (fun y => decide (y ≤ x)) := by
    conv_rhs => rw [← List.take_append_drop (k + 1) r]
    rw [List.countP_append]
    have hlen1 : (r.take (k + 1)).length = k + 1 := by
      simp
      omega
    have h1 : (r.take (k + 1)).countP (fun y => decide (y ≤ x)) = k + 1 := by
      have hall : ∀ z ∈ r.take (k + 1), (fun y => decide (y ≤ x)) z = true := by
        intro z hz
        obtain ⟨j, hj, hjz⟩ := mem_getD _ _ hz
        rw [hlen1] at hj
        rw [getD_take_lt _ _ j hj] at hjz
        simp only [decide_eq_true_eq]
        rw [← hjz]
        rcases Nat.lt_or_ge j k with h | h
        · exact hle j h
        · have : j = k := by omega
          rw [this]
      rw [List.countP_eq_length.2 hall, hlen1]
    omega
  rw [hperm.countP_eq] at hc1 hc2
  have hA := sorted_ge_of_countP_le x m hs k (by omega) hc1
  have hB := sorted_le_of_lt_countP x m hs k (by omega) hc2
  exact le_antisymm hB hA

/-- Models `Fns.compare` (fn.go): run the three-way functions in priority
order and return the first non-zero result; `0` if every function ties. -/
def compare {β : Type} : List (β → β → Int) → β → β → Int
  | [], _, _ => 0
  | f :: rest, lhs, rhs =>
    if f lhs rhs ≠ 0 then f lhs rhs else compare rest lhs rhs

/-- Models `Fns.Reversed` (order.go): a new function list in the same order,
each function returning the negation of the original. -/
def Reversed {β : Type} (fns : List (β → β → Int)) : List (β → β → Int) :=
  fns.map (fun original => fun lhs rhs => -(original lhs rhs))

/-- Outcome of `Fns.Search` (order.go): an index of an equal element, the
`-1` "not found" sentinel, or an out-of-range `s.Index(i)` access (a run-time
fault of the reflection API). -/
inductive SearchResult where
  | found (i : Nat)
  | notFound
  | indexFault
deriving DecidableEq

/-- Models the `for` loop of `Fns.Search` (order.go).  One fuel unit is one
iteration; `none` means the loop has not returned within `fuel` iterations.
`i := int(uint(start+end) >> 1)` is modelled by reducing `start + stop`
modulo `2 ^ 64` (Go's conversion of a negative `int` to `uint`) before the
logical shift; the result always fits back into a 64-bit `int`. -/
def searchLoop (cmp : α → α → Int) (l : List α) (v : α) :
    Nat → Int → Int → Option SearchResult
  | 0, _, _ => none
  | fuel + 1, start, stop =>
    let i : Nat := ((start + stop) % (2 ^ 64)).toNat >>> 1
    if i < l.length then
      if cmp (l.getD i default) v = 0 then some (.found i)
      else if start = stop then some .notFound
      else if cmp (l.getD i default) v < 0 then
        searchLoop cmp l v fuel ((i : Int) + 1) stop
      else
        searchLoop cmp l v fuel start ((i : Int) - 1)
    else some .indexFault

/-- Models `Fns.Search` (order.go): `start, end := 0, s.Len()-1`; an empty
slice returns the sentinel immediately, otherwise the loop runs. -/
def Search (cmp : α → α → Int) (l : List α) (v : α) (fuel : Nat) :
    Option SearchResult :=
  if (0 : Int) > (l.length : Int) - 1 then some .notFound
  else searchLoop cmp l v fuel 0 ((l.length : Int) - 1)

/-- Models `reflect.Kind` restricted to the kinds relevant to the numeric
conversion lattice of `internal/reflectutil/t.go` (plus two non-numeric
kinds).  Struct kinds (whose extra `ConvertibleTo` test needs full type
information) are outside the modelled fragment. -/
inductive GoKind where
  | int | int8 | int16 | int32 | int64
  | uint | uint8 | uint16 | uint32 | uint64
  | float32 | float64 | complex64 | complex128
  | boolean | str
deriving DecidableEq

/-- Models the `numKind` constants of t.go. -/
inductive NumKind where
  | numNot | numInt | numUint | numFloat | numComplex
deriving DecidableEq

/-- Models `numKindOf` (t.go, lines 127-140).  Note that the source's
`case reflect.Complex64, reflect.Complex128` branch returns `numFloat`,
not the declared `numComplex` constant (which is never returned). -/
def numKindOf : GoKind → NumKind
  | .int | .int8 | .int16 | .int32 | .int64 => .numInt
  | .uint | .uint8 | .uint16 | .uint32 | .uint64 => .numUint
  | .float32 | .float64 => .numFloat
  | .complex64 | .complex128 => .numFloat
  | _ => .numNot

/-- Models `reflect.Type.Bits` on a 64-bit platform (`int`/`uint` are 64 bits
wide).  It is only consulted when both kinds are numeric; the non-numeric
value is arbitrary. -/
def bits : GoKind → Nat
  | .int => 64 | .int8 => 8 | .int16 => 16 | .int32 => 32 | .int64 => 64
  | .uint => 64 | .uint8 => 8 | .uint16 => 16 | .uint32 => 32 | .uint64 => 64
  | .float32 => 32 | .float64 => 64
  | .complex64 => 64 | .complex128 => 128
  | .boolean => 0 | .str => 0

/-- Models `kindConversionAllowed` (t.go, lines 101-113) on the modelled kind
fragment: identical kinds are allowed (the `dst.Kind() != Struct` proviso is
vacuous here since struct kinds are not modelled), and otherwise both kinds
must be numeric, in the same `numKind` group, with `src.Bits() <= dst.Bits()`. -/
def kindConversionAllowed (src dst : GoKind) : Bool :=
  (src == dst) ||
    (numKindOf src != NumKind.numNot && numKindOf src == numKindOf dst &&
      decide (bits src ≤ bits dst))

/-- Models the success condition of `T.convert` (t.go, lines 64-98) for a
non-pointer candidate type, identified with its kind: the loop succeeds
immediately when `src == dst` or when `kindConversionAllowed src dst`. -/
def tCheck (src dst : GoKind) : Bool :=
  src == dst || kindConversionAllowed src dst

/-- Models `reflectutil.Slice` (slice_test.go): the narrowed window keeps a
swap function acting on the original backing storage plus the accumulated
`swapOffset`; `len` is the narrowed `reflect.Value`'s length. -/
structure GoSlice where
  swapOffset : Nat
  len : Nat
deriving DecidableEq

/-- Models `reflectutil.NewSlice`: a fresh view of the whole backing list,
offset 0. -/
def NewSlice (backing : List α) : GoSlice :=
  { swapOffset := 0, len := backing.length }

/-- Models `Slice.Slice` (reflect.Value.Slice re-slicing plus
`swapOffset += i`). -/
def GoSlice.Slice (s : GoSlice) (i j : Nat) : GoSlice :=
  { swapOffset := s.swapOffset + i, len := j - i }

/-- Models `Slice.Slice3` (the 3-argument variant; the extra capacity bound
`k` does not affect the window or the swap offset). -/
def GoSlice.Slice3 (s : GoSlice) (i j _k : Nat) : GoSlice :=
  { swapOffset := s.swapOffset + i, len := j - i }

/-- Models `Slice.Swap`: `s.swap(i+s.swapOffset, j+s.swapOffset)` where
`s.swap` is `reflect.Swapper` of the original backing storage. -/
def GoSlice.Swap (backing : List α) (s : GoSlice) (i j : Nat) : List α :=
  swapL backing (i + s.swapOffset) (j + s.swapOffset)

/-- One narrowing step applied to a view: `Slice(lo, hi)` or
`Slice3(lo, hi, cap)`. -/
inductive Narrow where
  | slice2 (lo hi : Nat)
  | slice3 (lo hi cap : Nat)

/-- The `lo` bound of a narrowing step (the amount it adds to the offset). -/
def Narrow.lo : Narrow → Nat
  | .slice2 lo _ => lo
  | .slice3 lo _ _ => lo

/-- Apply one narrowing step. -/
def applyNarrow (s : GoSlice) : Narrow → GoSlice
  | .slice2 lo hi => s.Slice lo hi
  | .slice3 lo hi cap => s.Slice3 lo hi cap

/-- Apply a chain of narrowing steps, left to right. -/
def applyNarrows (s : GoSlice) (steps : List Narrow) : GoSlice :=
  steps.foldl applyNarrow s

/-- Models a Go value that is either of the comparator's base type or a
pointer chain ending at it (`*T`, `**T`, ...). -/
inductive GoVal (β : Type) where
  | base (v : β)
  | ptr (p : GoVal β)

/-- Models the pointer-unwrapping loop of `T.convert` (t.go, lines 75-97) for
a target type `T` with `ptrCount = 0`: the `case src.Kind() == reflect.Ptr`
arm takes `v.Elem()` repeatedly until `src == dst`. -/
def unwrapPtr {β : Type} : GoVal β → β
  | .base v => v
  | .ptr p => unwrapPtr p

/-- Models the closure built by `newFn` (fn.go, lines 51-56): the user's
function is called on `t1.Convert(lhs)` and `t2.Convert(rhs)`, i.e. on the
operands with their pointer chains unwrapped to the base type. -/
def newFn {β : Type} (f : β → β → Int) : GoVal β → GoVal β → Int :=
  fun lhs rhs => f (unwrapPtr lhs) (unwrapPtr rhs)

/-- Models `By` (order.go) at the value level: every supplied function is
wrapped by `newFn`. -/
def By {β : Type} (fns : List (β → β → Int)) :
    List (GoVal β → GoVal β → Int) :=
  fns.map newFn

/-- Models `Condition` (condition.go): a comparator plus a bound left-hand
value. -/
structure Condition (β : Type) where
  fns : List (GoVal β → GoVal β → Int)
  lhs : GoVal β

/-- Models `Fns.Is` (condition.go). -/
def Is {β : Type} (fns : List (GoVal β → GoVal β → Int)) (lhs : GoVal β) :
    Condition β :=
  { fns := fns, lhs := lhs }

/-- Models `Condition.Equal`. -/
def Condition.Equal {β : Type} (c : Condition β) (rhs : GoVal β) : Bool :=
  decide (compare c.fns c.lhs rhs = 0)

/-- Models `Condition.NotEqual`. -/
def Condition.NotEqual {β : Type} (c : Condition β) (rhs : GoVal β) : Bool :=
  decide (compare c.fns c.lhs rhs ≠ 0)

/-- Models `Condition.Greater`. -/
def Condition.Greater {β : Type} (c : Condition β) (rhs : GoVal β) : Bool :=
  decide (0 < compare c.fns c.lhs rhs)

/-- Models `Condition.GreaterEqual`. -/
def Condition.GreaterEqual {β : Type} (c : Condition β) (rhs : GoVal β) : Bool :=
  decide (0 ≤ compare c.fns c.lhs rhs)

/-- Models `Condition.Less`. -/
def Condition.Less {β : Type} (c : Condition β) (rhs : GoVal β) : Bool :=
  decide (compare c.fns c.lhs rhs < 0)

/-- Models `Condition.LessEqual`. -/
def Condition.LessEqual {β : Type} (c : Condition β) (rhs : GoVal β) : Bool :=
  decide (compare c.fns c.lhs rhs ≤ 0)

theorem compare_singleton {β : Type} (f : β → β → Int) (a b : β) :
    compare [f] a b = f a b := by
  show (if f a b ≠ 0 then f a b else compare [] a b) = f a b
  by_cases h : f a b = 0 <;> simp [h, compare]

/-- C4: for every window `l` of length `n ≥ 1` and pivot position `p < n`,
`partition l p` permutes the window and returns an index `c` such that the
element originally at `p` now sits at `c`, every element left of `c` compares
strictly less than that pivot element, and every element right of `c`
compares greater than or equal to it. -/
theorem partition_places_pivot (cmp : α → α → Int) (l : List α) (p : Nat)
    (hn : 1 ≤ l.length) (hp : p < l.length) :
    (partition cmp l p).1.Perm l ∧
    (partition cmp l p).2 < l.length ∧
    (partition cmp l p).1.getD (partition cmp l p).2 default = l.getD p default ∧
    (∀ i, i < (partition cmp l p).2 →
      cmp ((partition cmp l p).1.getD i default) (l.getD p default) < 0) ∧
    (∀ i, (partition cmp l p).2 < i → i < l.length →
      0 ≤ cmp ((partition cmp l p).1.getD i default) (l.getD p default)) := by
  obtain ⟨_, h2, h3, h4, h5, h6⟩ := partition_spec cmp l p hn hp
  exact ⟨h2, h3, h4, h5, h6⟩

theorem partition_places_pivot_witness :
    (1 ≤ ([5, 4, 2, 3, 1] : List Int).length ∧
      3 < ([5, 4, 2, 3, 1] : List Int).length) ∧
    ((partition (fun a b : Int => a - b) [5, 4, 2, 3, 1] 3).1.Perm
        [5, 4, 2, 3, 1] ∧
      (partition (fun a b : Int => a - b) [5, 4, 2, 3, 1] 3).2 <
        ([5, 4, 2, 3, 1] : List Int).length ∧
      (partition (fun a b : Int => a - b) [5, 4, 2, 3, 1] 3).1.getD
          (partition (fun a b : Int => a - b) [5, 4, 2, 3, 1] 3).2 default =
        ([5, 4, 2, 3, 1] : List Int).getD 3 default ∧
      (∀ i, i < (partition (fun a b : Int => a - b) [5, 4, 2, 3, 1] 3).2 →
        (fun a b : Int => a - b)
          ((partition (fun a b : Int => a - b) [5, 4, 2, 3, 1] 3).1.getD i default)
          (([5, 4, 2, 3, 1] : List Int).getD 3 default) < 0) ∧
      (∀ i, (partition (fun a b : Int => a - b) [5, 4, 2, 3, 1] 3).2 < i →
        i < ([5, 4, 2, 3, 1] : List Int).length →
        0 ≤ (fun a b : Int => a - b)
          ((partition (fun a b : Int => a - b) [5, 4, 2, 3, 1] 3).1.getD i default)
          (([5, 4, 2, 3, 1] : List Int).getD 3 default))) :=
  ⟨⟨by decide, by decide⟩,
    partition_places_pivot (fun a b : Int => a - b) [5, 4, 2, 3, 1] 3
      (by decide) (by decide)⟩

/-- C6: the composite `compare` returns the result of the first function in
priority order that returns non-zero, and returns 0 exactly when every
function returns 0; for a two-function comparator the second function decides
exactly when the first reports a tie. -/
theorem compare_first_nonzero {β : Type} (fns : List (β → β → Int))
    (f g : β → β → Int) (a b : β) :
    (compare fns a b =
      ((fns.find? (fun h => h a b != 0)).elim 0 (fun h => h a b))) ∧
    (compare fns a b = 0 ↔ ∀ h ∈ fns, h a b = 0) ∧
    (compare [f, g] a b = if f a b ≠ 0 then f a b else g a b) := by
  refine ⟨?_, ?_, ?_⟩
  · induction fns with
    | nil => rfl
    | cons f' rest ih =>
        by_cases h : f' a b = 0
        · simp only [compare, h, ne_eq, not_true_eq_false, if_false,
            List.find?_cons, bne_self_eq_false]
          simpa [h] using ih
        · simp [compare, List.find?_cons, h, bne]
  · induction fns with
    | nil => simp [compare]
    | cons f' rest ih =>
        by_cases h : f' a b = 0
        · simp [compare, h, ih]
        · simp [compare, h]
  · by_cases h : f a b = 0
    · simp only [compare, h, ne_eq, not_true_eq_false, if_false]
      by_cases hg : g a b = 0 <;> simp [hg]
    · simp [compare, h]

/-- C7: `Reversed` negates the composite comparison pointwise:
`compare (Reversed fns) a b = -(compare fns a b)`; it negates each component
function in place, preserving the tie-break priority order. -/
theorem reversed_negates_compare {β : Type} (fns : List (β → β → Int))
    (a b : β) :
    compare (Reversed fns) a b = -(compare fns a b) := by
  induction fns with
  | nil => rfl
  | cons f rest ih =>
      show compare ((fun lhs rhs => -(f lhs rhs)) :: Reversed rest) a b = _
      by_cases h : f a b = 0
      · simp [compare, h, ih]
      · simp [compare, h]

/-- C8: `Select` fails exactly when `k < 0` or `k ≥ len`, and on failure
(the source panics before any element is moved) the slice is returned
completely unchanged. -/
theorem select_bounds_check (cmp : α → α → Int) (l : List α) (k : Int) :
    Select cmp l k = (l, false) ↔ (k < 0 ∨ (l.length : Int) ≤ k) := by
  unfold Select
  split
  · next h => exact iff_of_true rfl h
  · next h =>
      constructor
      · intro hcon
        exact absurd (congrArg Prod.snd hcon) (by simp)
      · intro hcon
        exact absurd hcon h

theorem applyNarrows_offset (s : GoSlice) (steps : List Narrow) :
    (applyNarrows s steps).swapOffset
      = s.swapOffset + (steps.map Narrow.lo).sum := by
  induction steps generalizing s with
  | nil => simp [applyNarrows]
  | cons st rest ih =>
      have hstep : applyNarrows s (st :: rest)
          = applyNarrows (applyNarrow s st) rest := rfl
      rw [hstep, ih]
      cases st <;>
        simp [applyNarrow, GoSlice.Slice, GoSlice.Slice3, Narrow.lo] <;> omega

/-- C9: `Swap(i, j)` on a view narrowed by any chain of `Slice`/`Slice3`
steps with accumulated offset `off` mutates the original backing storage
exactly as `Swap(i+off, j+off)` on the un-narrowed view; the offset is the
sum of the chain's lower bounds, and no narrowing step copies the backing
storage. -/
theorem narrowed_swap_writes_through (backing : List α) (steps : List Narrow)
    (i j : Nat) :
    GoSlice.Swap backing (applyNarrows (NewSlice backing) steps) i j
      = GoSlice.Swap backing (NewSlice backing)
          (i + (applyNarrows (NewSlice backing) steps).swapOffset)
          (j + (applyNarrows (NewSlice backing) steps).swapOffset) ∧
    (applyNarrows (NewSlice backing) steps).swapOffset
      = (steps.map Narrow.lo).sum := by
  constructor
  · simp [GoSlice.Swap, NewSlice]
  · rw [applyNarrows_offset]
    simp [NewSlice]

theorem compare_By_unwrap {β : Type} (fns : List (β → β → Int))
    (p q : GoVal β) :
    compare (By fns) p q = compare fns (unwrapPtr p) (unwrapPtr q) := by
  induction fns with
  | nil => rfl
  | cons f rest ih =>
      show compare (newFn f :: By rest) p q = _
      by_cases h : f (unwrapPtr p) (unwrapPtr q) = 0
      · simp [compare, newFn, h, ih]
      · simp [compare, newFn, h]

/-- C10: for a comparator over a non-pointer base type, pointer indirection
on operands is transparent to `compare` and to every `Condition` operation:
the result only depends on the fully unwrapped base values, because `newFn`
converts both operands to the base type before the user functions run. -/
theorem condition_pointer_transparent {β : Type} (fns : List (β → β → Int))
    (p q : GoVal β) :
    compare (By fns) p q
      = compare (By fns) (.base (unwrapPtr p)) (.base (unwrapPtr q)) ∧
    (Is (By fns) p).Equal q
      = (Is (By fns) (.base (unwrapPtr p))).Equal (.base (unwrapPtr q)) ∧
    (Is (By fns) p).NotEqual q
      = (Is (By fns) (.base (unwrapPtr p))).NotEqual (.base (unwrapPtr q)) ∧
    (Is (By fns) p).Greater q
      = (Is (By fns) (.base (unwrapPtr p))).Greater (.base (unwrapPtr q)) ∧
    (Is (By fns) p).GreaterEqual q
      = (Is (By fns) (.base (unwrapPtr p))).GreaterEqual (.base (unwrapPtr q)) ∧
    (Is (By fns) p).Less q
      = (Is (By fns) (.base (unwrapPtr p))).Less (.base (unwrapPtr q)) ∧
    (Is (By fns) p).LessEqual q
      = (Is (By fns) (.base (unwrapPtr p))).LessEqual (.base (unwrapPtr q)) := by
  have hc : compare (By fns) p q
      = compare (By fns) (.base (unwrapPtr p)) (.base (unwrapPtr q)) := by
    rw [compare_By_unwrap, compare_By_unwrap]
    rfl
  refine ⟨hc, ?_, ?_, ?_, ?_, ?_, ?_⟩ <;>
    simp [Is, Condition.Equal, Condition.NotEqual, Condition.Greater,
      Condition.GreaterEqual, Condition.Less, Condition.LessEqual, hc]

/-- C3: evaluation of the conversion lattice at the claim's inputs.  The
bit-width asymmetry holds (`int8` accepted where `int64` is expected,
`int64` rejected where `int8` is expected), but the four numeric categories
are not kept apart: `numKindOf` maps the complex kinds to `numFloat` (the
`numComplex` constant is declared but never returned), so a `float64` is
accepted where a `complex128` is expected and a `complex64` is accepted
where a `float64` is expected — contradicting the claim. -/
theorem numeric_conversion_lattice_eval :
    tCheck GoKind.int8 GoKind.int64 = true ∧
    tCheck GoKind.int64 GoKind.int8 = false ∧
    tCheck GoKind.float64 GoKind.complex128 = true ∧
    tCheck GoKind.complex64 GoKind.float64 = true ∧
    numKindOf GoKind.complex64 = NumKind.numFloat ∧
    numKindOf GoKind.complex128 = NumKind.numFloat := by
  decide

theorem searchLoop_stuck : ∀ fuel : Nat,
    searchLoop (fun a b : Int => a - b) [1, 2, 4, 5] 3 fuel 2 1 = none := by
  intro fuel
  induction fuel with
  | zero => rfl
  | succ n ih =>
      have hstep : searchLoop (fun a b : Int => a - b) [1, 2, 4, 5] 3 (n + 1) 2 1
          = searchLoop (fun a b : Int => a - b) [1, 2, 4, 5] 3 n 2 1 := rfl
      rw [hstep]
      exact ih

/-- C2: the claim fails on the code.  On the ascending-sorted slice
`[1, 2, 4, 5]`, searching the absent value `3` drives the loop into the
state `start = 2, end = 1`, from which every iteration recomputes `i = 1`
and sets `start := 2` again: the loop never returns, for any number of
iterations.  (The source's own doc comment promises `-1` when no equal
element exists.) -/
theorem search_diverges_on_sorted_input :
    ∀ fuel : Nat, Search (fun a b : Int => a - b) [1, 2, 4, 5] 3 fuel = none := by
  intro fuel
  match fuel with
  | 0 => rfl
  | 1 => rfl
  | (n + 2) =>
      have h1 : Search (fun a b : Int => a - b) [1, 2, 4, 5] 3 (n + 2)
          = searchLoop (fun a b : Int => a - b) [1, 2, 4, 5] 3 n 2 1 := rfl
      rw [h1]
      exact searchLoop_stuck n

/-- C5: the claim fails on the code.  `Search([10, 20], 5)` reaches
`start = 0, end = -1` after two comparisons; the midpoint computation
`int(uint(start+end) >> 1)` then yields `2^63 - 1` and `s.Index` faults on
the out-of-range index — the loop neither returns normally nor fails at
validation.  (`Select` itself does terminate: its model is a total
function.) -/
theorem search_index_fault :
    Search (fun a b : Int => a - b) [10, 20] 5 2
      = some SearchResult.indexFault := by
  rfl

/-- C1: for every slice `l`, every comparator built by `By` from a non-empty
function list whose composite `compare` is a consistent three-way order
(it agrees with a linear order on the element type), and every rank
`0 ≤ k < n`: after `Select(l, k)` the slice is a permutation of its original
contents, every element at a position before `k` compares `≤ 0` against the
element at `k`, every element after `k` compares `≥ 0` against it, and the
element at `k` equals the element at index `k` of an ascending sort of the
same multiset. -/
theorem select_order_statistic {α : Type} [Inhabited α] [LinearOrder α]
    (fns : List (α → α → Int)) (hne : fns ≠ [])
    (hlt : ∀ a b : α, compare fns a b < 0 ↔ a < b)
    (heq : ∀ a b : α, compare fns a b = 0 ↔ a = b)
    (l : List α) (k : Int) (hk0 : 0 ≤ k) (hkn : k < (l.length : Int)) :
    (Select (compare fns) l k).1.Perm l ∧
    (∀ i : Nat, i < k.toNat →
      compare fns ((Select (compare fns) l k).1.getD i default)
        ((Select (compare fns) l k).1.getD k.toNat default) ≤ 0) ∧
    (∀ i : Nat, k.toNat < i → i < l.length →
      0 ≤ compare fns ((Select (compare fns) l k).1.getD i default)
        ((Select (compare fns) l k).1.getD k.toNat default)) ∧
    (∀ m : List α, m.Sorted (· ≤ ·) → l.Perm m →
      m.getD k.toNat default
        = (Select (compare fns) l k).1.getD k.toNat default) := by
  have hknat : k.toNat < l.length := by omega
  have hsel : (Select (compare fns) l k).1
      = selectLoop (compare fns) l k.toNat := by
    rw [Select, if_neg (by push_neg; omega)]
  obtain ⟨sperm, sle, sge⟩ :=
    selectLoop_spec (compare fns) hlt l.length l k.toNat (Nat.le_refl _) hknat
  rw [hsel]
  have hle2 : ∀ a b : α, a ≤ b → compare fns a b ≤ 0 := by
    intro a b hab
    rcases lt_or_eq_of_le hab with h | h
    · have := (hlt a b).2 h
      omega
    · have := (heq a b).2 h
      omega
  have hge2 : ∀ a b : α, b ≤ a → 0 ≤ compare fns a b := by
    intro a b hab
    by_contra hc
    push_neg at hc
    exact absurd ((hlt a b).1 hc) (not_lt.2 hab)
  refine ⟨sperm, ?_, ?_, ?_⟩
  · intro i hi
    exact hle2 _ _ (sle i hi)
  · intro i h1 h2
    exact hge2 _ _ (sge i h1 h2)
  · intro m hms hperm
    exact kth_of_partitioned (selectLoop (compare fns) l k.toNat) m k.toNat
      (sperm.trans hperm) hms (by rw [sperm.length_eq]; exact hknat) sle
      (fun i h1 h2 => sge i h1 (by rw [← sperm.length_eq]; exact h2))

theorem select_order_statistic_witness :
    (([fun a b : Int => a - b] : List (Int → Int → Int)) ≠ [] ∧
      (0 : Int) ≤ 1 ∧ (1 : Int) < (([3, 1, 2] : List Int).length : Int)) ∧
    ((Select (compare [fun a b : Int => a - b]) [3, 1, 2] 1).1.Perm [3, 1, 2] ∧
      (∀ i : Nat, i < (1 : Int).toNat →
        compare [fun a b : Int => a - b]
          ((Select (compare [fun a b : Int => a - b]) [3, 1, 2] 1).1.getD i default)
          ((Select (compare [fun a b : Int => a - b]) [3, 1, 2] 1).1.getD
            (1 : Int).toNat default) ≤ 0) ∧
      (∀ i : Nat, (1 : Int).toNat < i → i < ([3, 1, 2] : List Int).length →
        0 ≤ compare [fun a b : Int => a - b]
          ((Select (compare [fun a b : Int => a - b]) [3, 1, 2] 1).1.getD i default)
          ((Select (compare [fun a b : Int => a - b]) [3, 1, 2] 1).1.getD
            (1 : Int).toNat default)) ∧
      (∀ m : List Int, m.Sorted (· ≤ ·) → ([3, 1, 2] : List Int).Perm m →
        m.getD (1 : Int).toNat default
          = (Select (compare [fun a b : Int => a - b]) [3, 1, 2] 1).1.getD
              (1 : Int).toNat default)) :=
  ⟨⟨List.cons_ne_nil _ _, by decide, by decide⟩,
    select_order_statistic [fun a b : Int => a - b] (List.cons_ne_nil _ _)
      (fun a b => by rw [compare_singleton]; omega)
      (fun a b => by rw [compare_singleton]; omega)
      [3, 1, 2] 1 (by decide) (by decide)⟩

end GoOrder
